import Mathlib

/-!
Verification of the OES_bypass repository core:
- the OCR chunk-clustering pass (`ocr.py`, chunk mode),
- the bbox point selector (`mouseclick.py`),
- the eased pointer-movement controller (`mousemovement.py`).

All machine integers are modelled as `Int` (Python integers are unbounded);
Python float thresholds are modelled as `ℚ` (all values appearing in the
algorithms are exact small decimals, and comparisons against integer gaps
are order-faithful).
-/

/-- A raw OCR word box, as built in `ocr.py` chunk mode from the tesseract
output: text plus `x`,`y`,`w`,`h` in absolute pixel coordinates.  The mutable
`used` flag of the Python dict is modelled externally as a visited set of
list indices. -/
structure WordBox where
  text : String
  x : Int
  y : Int
  w : Int
  h : Int
deriving DecidableEq, Repr

def dfltBox : WordBox := ⟨"", 0, 0, 0, 0⟩

/-- `box_distance` from `ocr.py`: the pair `(x_gap, y_gap)` where each gap is
`max(b2.c - (b1.c + b1.len), b1.c - (b2.c + b2.len), 0)` on that axis. -/
def box_distance (box1 box2 : WordBox) : Int × Int :=
  (max (box2.x - (box1.x + box1.w)) (max (box1.x - (box2.x + box2.w)) 0),
   max (box2.y - (box1.y + box1.h)) (max (box1.y - (box2.y + box2.h)) 0))

/-- `is_close` from `ocr.py`: both gaps within the (float) thresholds. -/
def is_close (xt yt : ℚ) (box1 box2 : WordBox) : Bool :=
  decide (((box_distance box1 box2).1 : ℚ) ≤ xt) &&
  decide (((box_distance box1 box2).2 : ℚ) ≤ yt)

/-- One scan of the inner `for other in boxes` loop of the chunk merge in
`ocr.py`: the indices of all not-yet-used boxes close to box `q`, in list
order. -/
def closeNew (bs : List WordBox) (xt yt : ℚ) (used : Finset ℕ) (q : ℕ) : List ℕ :=
  (List.range bs.length).filter
    (fun j => decide (j ∉ used) && is_close xt yt (bs.getD q dfltBox) (bs.getD j dfltBox))

lemma closeNew_nodup (bs : List WordBox) (xt yt : ℚ) (used : Finset ℕ) (q : ℕ) :
    (closeNew bs xt yt used q).Nodup :=
  (List.nodup_range _).filter _

lemma mem_closeNew {bs : List WordBox} {xt yt : ℚ} {used : Finset ℕ} {q j : ℕ} :
    j ∈ closeNew bs xt yt used q ↔
      j < bs.length ∧ j ∉ used ∧
        is_close xt yt (bs.getD q dfltBox) (bs.getD j dfltBox) = true := by
  simp [closeNew, List.mem_filter, List.mem_range, and_assoc]

lemma closeNew_toFinset_subset (bs : List WordBox) (xt yt : ℚ) (used : Finset ℕ) (q : ℕ) :
    (closeNew bs xt yt used q).toFinset ⊆ Finset.range bs.length \ used := by
  intro j hj
  rw [List.mem_toFinset, mem_closeNew] at hj
  simp [Finset.mem_sdiff, Finset.mem_range, hj.1, hj.2.1]

/-- Upper bound on the remaining iterations of the BFS work-queue loop: each
iteration pops one queue entry and enqueues only boxes freshly removed from
the unused pool, so (unused count + queue length) falls by exactly one per
iteration. -/
def bfsMeasure (bs : List WordBox) (queue : List ℕ) (used : Finset ℕ) : ℕ :=
  ((Finset.range bs.length) \ used).card + queue.length

/-- The BFS work-queue loop of the chunk merge in `ocr.py` (`while queue:`),
with an explicit iteration budget (structural recursion on `fuel`): pop a box
index, merge every unused box close to it (marking it used, appending it to
the chunk member list and to the queue), until the queue is empty.  Returns
the final used set and the chunk member list in discovery order.  `bfs` below
runs it with the provably sufficient budget `bfsMeasure`. -/
def bfsFuel (bs : List WordBox) (xt yt : ℚ) :
    ℕ → List ℕ → Finset ℕ → List ℕ → Finset ℕ × List ℕ
  | _, [], used, cur => (used, cur)
  | 0, _ :: _, used, cur => (used, cur)
  | fuel + 1, q :: queue, used, cur =>
      bfsFuel bs xt yt fuel (queue ++ closeNew bs xt yt used q)
        (used ∪ (closeNew bs xt yt used q).toFinset)
        (cur ++ closeNew bs xt yt used q)

/-- The exact decrement of the loop measure at each BFS iteration. -/
lemma bfsMeasure_step (bs : List WordBox) (xt yt : ℚ) (used : Finset ℕ) (q : ℕ)
    (queue : List ℕ) :
    bfsMeasure bs (queue ++ closeNew bs xt yt used q)
        (used ∪ (closeNew bs xt yt used q).toFinset) + 1
      = bfsMeasure bs (q :: queue) used := by
  have hsub : (closeNew bs xt yt used q).toFinset ⊆ Finset.range bs.length \ used :=
    closeNew_toFinset_subset bs xt yt used q
  have hcard : ((Finset.range bs.length) \ (used ∪ (closeNew bs xt yt used q).toFinset)).card
      = ((Finset.range bs.length) \ used).card - (closeNew bs xt yt used q).length := by
    have h1 : (Finset.range bs.length) \ (used ∪ (closeNew bs xt yt used q).toFinset)
        = ((Finset.range bs.length) \ used) \ (closeNew bs xt yt used q).toFinset := by
      ext a; simp [Finset.mem_sdiff]; tauto
    rw [h1, Finset.card_sdiff hsub,
      List.toFinset_card_of_nodup (closeNew_nodup bs xt yt used q)]
  have hle : (closeNew bs xt yt used q).length ≤ ((Finset.range bs.length) \ used).card := by
    rw [← List.toFinset_card_of_nodup (closeNew_nodup bs xt yt used q)]
    exact Finset.card_le_card hsub
  simp only [bfsMeasure, List.length_append, List.length_cons, hcard]
  omega

/-- The BFS work-queue loop of `ocr.py`, run to completion (the budget
`bfsMeasure` is an upper bound on the number of iterations, so the fuel never
runs out; see `bfsFuel_spec`). -/
def bfs (bs : List WordBox) (xt yt : ℚ)
    (queue : List ℕ) (used : Finset ℕ) (cur : List ℕ) : Finset ℕ × List ℕ :=
  bfsFuel bs xt yt (bfsMeasure bs queue used) queue used cur

/-- The outer `for i, box in enumerate(boxes)` loop of the chunk merge in
`ocr.py`: skip used boxes; otherwise seed a new chunk with box `i`, mark it
used and run the BFS.  Returns the chunks' member index lists, in creation
order (members in discovery order). -/
def mergeLoop (bs : List WordBox) (xt yt : ℚ) : List ℕ → Finset ℕ → List (List ℕ)
  | [], _ => []
  | i :: rest, used =>
      if i ∈ used then mergeLoop bs xt yt rest used
      else
        let r := bfs bs xt yt [i] (insert i used) [i]
        r.2 :: mergeLoop bs xt yt rest r.1

/-- A text chunk as produced by `ocr.py` chunk mode: space-joined text in
merge order, the bounding box `(x1, y1, x2 - x1, y2 - y1)`, plus (as ghost
instrumentation for the proofs) the member indices in discovery order. -/
structure Chunk where
  text : String
  bbox : Int × Int × Int × Int
  members : List ℕ
deriving DecidableEq, Repr

/-- Build the chunk record from the member indices, mirroring the seeded
min/max folds of `ocr.py` (`x1 = min(x1, other.x)` etc.).  The member list
produced by the merge is always non-empty (it starts with the seed). -/
def chunkOf (bs : List WordBox) : List ℕ → Chunk
  | [] => ⟨"", (0, 0, 0, 0), []⟩
  | i :: rest =>
      let get := fun j => bs.getD j dfltBox
      let x1 := rest.foldl (fun a j => min a (get j).x) (get i).x
      let y1 := rest.foldl (fun a j => min a (get j).y) (get i).y
      let x2 := rest.foldl (fun a j => max a ((get j).x + (get j).w)) ((get i).x + (get i).w)
      let y2 := rest.foldl (fun a j => max a ((get j).y + (get j).h)) ((get i).y + (get i).h)
      let t := rest.foldl (fun a j => a ++ " " ++ (get j).text) (get i).text
      ⟨t, (x1, y1, x2 - x1, y2 - y1), i :: rest⟩

/-- Top edge of a chunk's bounding box (`r["bbox"][1]`), the sort key of the
grouping pass. -/
def chunkY (c : Chunk) : Int := c.bbox.2.1

/-- The group-id walk of `ocr.py` (lines 113–120): `group_id` starts at 1,
`last_y = None`; for each chunk in sorted order, pre-increment the group id
when `last_y is None or (y - last_y) > group_y_thresh`, assign it, and set
`last_y = y`. -/
def groupLoop (gyt : ℚ) : List Chunk → ℕ → Option Int → List (Chunk × ℕ)
  | [], _, _ => []
  | c :: rest, gid, lastY =>
      let trigger : Bool :=
        match lastY with
        | none => true
        | some ly => decide (((chunkY c - ly : Int) : ℚ) > gyt)
      let gid' := if trigger then gid + 1 else gid
      (c, gid') :: groupLoop gyt rest gid' (some (chunkY c))

/-- The sort order of `results.sort(key=lambda r: r["bbox"][1])`. -/
def chunkLE (a b : Chunk) : Prop := chunkY a ≤ chunkY b

instance : DecidableRel chunkLE := fun a b => inferInstanceAs (Decidable (chunkY a ≤ chunkY b))

/-- The full chunk-mode clustering pass of `ocr.py`: merge boxes into chunks,
sort by bounding-box top edge ascending (Python's `list.sort` is a stable
comparison sort, modelled by the stable `insertionSort`), then assign group
ids. -/
def ocrChunkMode (bs : List WordBox) (xt yt gyt : ℚ) : List (Chunk × ℕ) :=
  let results := (mergeLoop bs xt yt (List.range bs.length) ∅).map (chunkOf bs)
  let sorted := List.insertionSort chunkLE results
  groupLoop gyt sorted 1 none

/-! ## `mouseclick.py`: BBox and point selection -/

/-- Bounding box in absolute screen coordinates, `mouseclick.py`. -/
structure BBox where
  x : Int
  y : Int
  w : Int
  h : Int
deriving DecidableEq, Repr

/-- `BBox.clamp_point`: clamp `(x, y)` into
`[b.x, b.x + max(b.w - 1, 0)] × [b.y, b.y + max(b.h - 1, 0)]`. -/
def BBox.clamp_point (b : BBox) (x y : Int) : Int × Int :=
  (max b.x (min x (b.x + max (b.w - 1) 0)), max b.y (min y (b.y + max (b.h - 1) 0)))

/-- `BBox.normalized`: clamp `w`/`h` to be non-negative. -/
def BBox.normalized (b : BBox) : BBox :=
  ⟨b.x, b.y, max b.w 0, max b.h 0⟩

/-- `BBox.is_empty`: the normalized box has `w ≤ 0` or `h ≤ 0`. -/
def BBox.is_empty (b : BBox) : Bool :=
  decide (b.normalized.w ≤ 0) || decide (b.normalized.h ≤ 0)

/-- Errors raised by the point selector (`ValueError` in the source, split by
message). -/
inductive PickErr where
  | emptyBBox (b : BBox)
  | unknownRule (r : String)
deriving DecidableEq, Repr

/-- Result of the point selector: a returned point, or a raised error. -/
inductive PickResult where
  | ok (p : Int × Int)
  | error (e : PickErr)
deriving DecidableEq, Repr

/-- Modelled interface of Python's stdlib `random.Random` (external to the
repository): a deterministic seeded generator, abstracted as a seed plus a
draw counter with an arbitrary concrete mixing function.  Only determinism
(same seed ⇒ same draws) and totality matter to the claims; `clamp_point`
makes every result independent of the drawn values' range. -/
structure RNG where
  seed : Int
  cnt : ℕ
deriving DecidableEq, Repr

/-- One `randint(lo, hi)` draw of the modelled generator (value in
`[lo, hi]` whenever `lo ≤ hi`), advancing the draw counter. -/
def randint (r : RNG) (lo hi : Int) : Int × RNG :=
  (lo + ((r.seed.natAbs * 2654435761 + r.cnt * 40503 + 12345) % 2147483647 : ℕ) % (hi - lo + 1),
   ⟨r.seed, r.cnt + 1⟩)

/-- ASCII lower-casing of one character, modelling Python's `str.lower` on
the rule strings in use (all ASCII). -/
def charLower (c : Char) : Char :=
  if 65 ≤ c.toNat ∧ c.toNat ≤ 90 then Char.ofNat (c.toNat + 32) else c

/-- Python `str.strip` whitespace: space, tab, newline, carriage return,
vertical tab, form feed. -/
def charIsSpace (c : Char) : Bool := c.toNat ∈ [32, 9, 10, 13, 11, 12]

/-- Python `str.strip()`: drop whitespace from both ends. -/
def pyStrip (l : List Char) : List Char :=
  ((l.dropWhile charIsSpace).reverse.dropWhile charIsSpace).reverse

/-- Rule-string normalization in `pick_point_in_bbox`:
`(rule or "").strip().lower().replace("_", "-")` (Python stdlib string
methods, modelled character-wise; the replace has a single-character
pattern). -/
def normalizeRule (rule : String) : String :=
  String.mk (((pyStrip rule.data).map charLower).map (fun c => if c = '_' then '-' else c))

/-- `pick_point_in_bbox` from `mouseclick.py`: reject an empty bbox, inset by
the (non-negative) margin with collapse-to-midpoint when the inner interval
inverts, then apply the rule; the result is re-clamped into the normalized
bbox. -/
def pick_point_in_bbox (bbox : BBox) (rule : String) (margin : Int) (rng : RNG) :
    PickResult :=
  let b := bbox.normalized
  if b.is_empty then .error (.emptyBBox bbox)
  else
    let m := max margin 0
    let il := b.x + min m (max (b.w - 1) 0)
    let it := b.y + min m (max (b.h - 1) 0)
    let ir := b.x + max (b.w - 1 - m) 0
    let ib := b.y + max (b.h - 1 - m) 0
    let il' := if ir < il then b.x + max (b.w / 2) 0 else il
    let ir' := if ir < il then b.x + max (b.w / 2) 0 else ir
    let it' := if ib < it then b.y + max (b.h / 2) 0 else it
    let ib' := if ib < it then b.y + max (b.h / 2) 0 else ib
    let r := normalizeRule rule
    if r = "random" ∨ r = "rand" then
      let d1 := randint rng il' ir'
      let d2 := randint d1.2 it' ib'
      .ok (b.clamp_point d1.1 d2.1)
    else if r = "left-middle" ∨ r = "leftmid" ∨ r = "left-mid" ∨ r = "left-middle-side" then
      .ok (b.clamp_point il' (b.y + max (b.h / 2) 0))
    else .error (.unknownRule r)

/-- The point-selection part of `click_bbox` from `mouseclick.py`:
`rng = random.Random(seed) if seed is not None else None`, then
`pick_point_in_bbox(bb, rule=rule, margin=margin, rng=rng)`; a `None` rng is
replaced inside the selector by a fresh unseeded source, modelled here as the
ambient `fresh` generator. -/
def click_bbox_point (bbox : BBox) (rule : String) (margin : Int)
    (seed : Option Int) (fresh : RNG) : PickResult :=
  let rng := match seed with
    | some s => RNG.mk s 0
    | none => fresh
  pick_point_in_bbox bbox rule margin rng

/-! ## `mousemovement.py`: eased, drift-corrected cursor animation -/

/-- The smoothstep ease of `move_cursor_uinput`: `t * t * (3 - 2 * t)`. -/
def ease (t : ℚ) : ℚ := t * t * (3 - 2 * t)

/-- Python 3 `round` (banker's rounding, half to even) on exact rationals. -/
def pyRound (q : ℚ) : Int :=
  if q - Int.floor q < 1 / 2 then Int.floor q
  else if q - Int.floor q > 1 / 2 then Int.floor q + 1
  else if Int.floor q % 2 = 0 then Int.floor q else Int.floor q + 1

/-- Per-axis clamp to the per-event cap `step_cap = 400`:
`max(-step_cap, min(step_cap, d))`. -/
def clampCap (d : Int) : Int := max (-400) (min 400 d)

/-- The absolute step target of animation step `i` of `steps`:
`int(round(start + (target - start) * ease(i / steps)))`. -/
def stepTarget (start target : Int) (steps i : ℕ) : Int :=
  pyRound ((start : ℚ) + ((target : ℚ) - start) * ease ((i : ℚ) / steps))

/-- The animated loop of `move_cursor_uinput` (`for i in range(1, steps + 1)`),
with the ground-truth position channel modelled as an oracle `reads` giving
the result of the k-th `get_cursor_pos()` call (call 0 is the initial
`start` read; call `i` is the re-read inside step `i`).  Element `i - 1` of
the result is the clamped relative delta `(mx, my)` applied at step `i`; the
source skips the `write` when a component is 0, which applies the same zero
motion.  `steps = max(int(steps), 1)` as in the source. -/
def moveDeltas (reads : ℕ → Int × Int) (x y : Int) (steps0 : ℕ) : List (Int × Int) :=
  let steps := max steps0 1
  (List.range steps).map (fun k =>
    let i := k + 1
    let c := reads i
    (clampCap (stepTarget (reads 0).1 x steps i - c.1),
     clampCap (stepTarget (reads 0).2 y steps i - c.2)))

/-! ## Helper lemmas: BBox -/

lemma BBox.normalized_idem (b : BBox) : b.normalized.normalized = b.normalized := by
  simp only [BBox.normalized, BBox.mk.injEq]
  refine ⟨trivial, trivial, by omega, by omega⟩

lemma BBox.is_empty_normalized (b : BBox) : b.normalized.is_empty = b.is_empty := by
  simp [BBox.is_empty, BBox.normalized_idem]

lemma BBox.is_empty_false_iff (b : BBox) :
    b.is_empty = false ↔ 0 < b.normalized.w ∧ 0 < b.normalized.h := by
  simp only [BBox.is_empty, Bool.or_eq_false_iff, decide_eq_false_iff_not, not_le]

lemma clamp_point_mem (b : BBox) (hw : 0 < b.w) (hh : 0 < b.h) (x y : Int) :
    b.x ≤ (b.clamp_point x y).1 ∧ (b.clamp_point x y).1 ≤ b.x + b.w - 1 ∧
    b.y ≤ (b.clamp_point x y).2 ∧ (b.clamp_point x y).2 ≤ b.y + b.h - 1 := by
  refine ⟨?_, ?_, ?_, ?_⟩ <;> simp only [BBox.clamp_point] <;> omega

/-- The inset left edge computed by `pick_point_in_bbox` (margin clamped to
the box, collapsed to the horizontal midpoint when the inner interval
inverts), extracted for the statement of the `left-middle` rule. -/
def innerLeft (b : BBox) (margin : Int) : Int :=
  let m := max margin 0
  let il := b.x + min m (max (b.w - 1) 0)
  let ir := b.x + max (b.w - 1 - m) 0
  if ir < il then b.x + max (b.w / 2) 0 else il

lemma pick_left_middle_general (bbox : BBox) (margin : Int) (rng : RNG)
    (hw : 0 < bbox.normalized.w) (hh : 0 < bbox.normalized.h) :
    pick_point_in_bbox bbox "left-middle" margin rng =
      .ok (innerLeft bbox.normalized margin,
           bbox.normalized.y + bbox.normalized.h / 2) := by
  have hemp : bbox.normalized.is_empty = false := by
    rw [BBox.is_empty_normalized, BBox.is_empty_false_iff]
    exact ⟨hw, hh⟩
  have hrule : normalizeRule "left-middle" = "left-middle" := by decide
  simp only [pick_point_in_bbox, hemp, Bool.false_eq_true, if_false, hrule]
  rw [if_neg (by decide), if_pos (by decide)]
  set b := bbox.normalized with hb
  have h1 : b.y + max (b.h / 2) 0 = b.y + b.h / 2 := by omega
  have hil : b.x ≤ innerLeft b margin ∧ innerLeft b margin ≤ b.x + b.w - 1 := by
    simp only [innerLeft]
    split <;> omega
  have hmid : b.y ≤ b.y + b.h / 2 ∧ b.y + b.h / 2 ≤ b.y + b.h - 1 := by omega
  simp only [BBox.clamp_point, PickResult.ok.injEq, Prod.mk.injEq]
  constructor
  · simp only [innerLeft]
    split <;> omega
  · omega

/-- C7: `pick_point_in_bbox` with rule `left-middle` on `(100,100,50,40)` and
margin 5 returns exactly `(105, 120)`; in general the rule returns
`x = inner_left` (left edge inset by the clamped margin, with midpoint
collapse) and `y =` the vertical midpoint of the outer rectangle, not of the
inset one. -/
theorem left_middle_rule_point :
    (∀ rng : RNG,
      pick_point_in_bbox ⟨100, 100, 50, 40⟩ "left-middle" 5 rng = .ok (105, 120)) ∧
    (∀ (bbox : BBox) (margin : Int) (rng : RNG),
      0 < bbox.normalized.w → 0 < bbox.normalized.h →
      pick_point_in_bbox bbox "left-middle" margin rng =
        .ok (innerLeft bbox.normalized margin,
             bbox.normalized.y + bbox.normalized.h / 2)) := by
  constructor
  · intro rng
    rw [pick_left_middle_general ⟨100, 100, 50, 40⟩ 5 rng (by decide) (by decide)]
    decide
  · intro bbox margin rng hw hh
    exact pick_left_middle_general bbox margin rng hw hh

/-- C7 witness: the general clause applied at the concrete rectangle of the
claim. -/
theorem left_middle_rule_point_witness :
    pick_point_in_bbox ⟨100, 100, 50, 40⟩ "left-middle" 5 ⟨0, 0⟩ =
      .ok (innerLeft (BBox.mk 100 100 50 40).normalized 5,
           (BBox.mk 100 100 50 40).normalized.y + (BBox.mk 100 100 50 40).normalized.h / 2) :=
  left_middle_rule_point.2 ⟨100, 100, 50, 40⟩ 5 ⟨0, 0⟩ (by decide) (by decide)

/-- C4: every point returned by `pick_point_in_bbox` (any rule that succeeds,
any margin, any generator state) lies within the clamped absolute bounds of
the normalized rectangle: `x ∈ [b.x, b.x + b.w - 1]`, `y ∈ [b.y, b.y + b.h - 1]`. -/
theorem pick_point_within_bounds (bbox : BBox) (rule : String) (margin : Int)
    (rng : RNG) (p : Int × Int)
    (h : pick_point_in_bbox bbox rule margin rng = .ok p) :
    bbox.normalized.x ≤ p.1 ∧ p.1 ≤ bbox.normalized.x + bbox.normalized.w - 1 ∧
    bbox.normalized.y ≤ p.2 ∧ p.2 ≤ bbox.normalized.y + bbox.normalized.h - 1 := by
  simp only [pick_point_in_bbox] at h
  by_cases hemp : bbox.normalized.is_empty
  · simp [hemp] at h
  · rw [Bool.not_eq_true] at hemp
    have hwh := (BBox.is_empty_false_iff bbox.normalized).mp hemp
    rw [BBox.normalized_idem] at hwh
    simp only [hemp, Bool.false_eq_true, if_false] at h
    split at h
    · rw [PickResult.ok.injEq] at h
      subst h
      exact clamp_point_mem bbox.normalized hwh.1 hwh.2 _ _
    · split at h
      · rw [PickResult.ok.injEq] at h
        subst h
        exact clamp_point_mem bbox.normalized hwh.1 hwh.2 _ _
      · exact absurd h (by simp)

/-- C4 witness: the theorem applied to a concrete successful selection. -/
theorem pick_point_within_bounds_witness :
    (BBox.mk 100 100 50 40).normalized.x ≤ (105 : Int) ∧
    (105 : Int) ≤ (BBox.mk 100 100 50 40).normalized.x + (BBox.mk 100 100 50 40).normalized.w - 1 ∧
    (BBox.mk 100 100 50 40).normalized.y ≤ (120 : Int) ∧
    (120 : Int) ≤ (BBox.mk 100 100 50 40).normalized.y + (BBox.mk 100 100 50 40).normalized.h - 1 :=
  pick_point_within_bounds ⟨100, 100, 50, 40⟩ "left-middle" 5 ⟨0, 0⟩ (105, 120) (by decide)

/-- C6: a rectangle that is empty after normalization (`w = 0` or `h = 0`)
always makes `pick_point_in_bbox` raise the empty-region error, for every
rule, margin and generator state. -/
theorem pick_empty_rejected (bbox : BBox)
    (hempty : bbox.normalized.w = 0 ∨ bbox.normalized.h = 0)
    (rule : String) (margin : Int) (rng : RNG) :
    pick_point_in_bbox bbox rule margin rng = .error (.emptyBBox bbox) := by
  have h : bbox.normalized.is_empty = true := by
    rw [BBox.is_empty_normalized, BBox.is_empty]
    rcases hempty with h | h <;> simp only [Bool.or_eq_true, decide_eq_true_eq] <;> omega
  simp only [pick_point_in_bbox, h, if_true]

/-- C6 witness: the zero-width rectangle of the spec's test. -/
theorem pick_empty_rejected_witness :
    ((BBox.mk 100 100 0 40).normalized.w = 0 ∨ (BBox.mk 100 100 0 40).normalized.h = 0) ∧
    pick_point_in_bbox ⟨100, 100, 0, 40⟩ "random" 2 ⟨7, 0⟩ =
      .error (.emptyBBox ⟨100, 100, 0, 40⟩) :=
  ⟨by decide, pick_empty_rejected ⟨100, 100, 0, 40⟩ (by decide) "random" 2 ⟨7, 0⟩⟩

/-- C10: a rectangle whose stored `w` or `h` is negative is clamped to 0 by
normalization, hence classified empty, and `pick_point_in_bbox` rejects it
with the same empty-region error as a zero-area rectangle, for every rule,
margin and generator state. -/
theorem pick_negative_dim_rejected (bbox : BBox)
    (hneg : bbox.w < 0 ∨ bbox.h < 0)
    (rule : String) (margin : Int) (rng : RNG) :
    (bbox.normalized.w = 0 ∨ bbox.normalized.h = 0) ∧
    pick_point_in_bbox bbox rule margin rng = .error (.emptyBBox bbox) := by
  have hz : bbox.normalized.w = 0 ∨ bbox.normalized.h = 0 := by
    simp only [BBox.normalized]
    rcases hneg with h | h
    · left; omega
    · right; omega
  refine ⟨hz, ?_⟩
  have h : bbox.normalized.is_empty = true := by
    rw [BBox.is_empty_normalized, BBox.is_empty]
    rcases hz with h | h <;> simp only [Bool.or_eq_true, decide_eq_true_eq] <;> omega
  simp only [pick_point_in_bbox, h, if_true]

/-- C10 witness: a negative-width rectangle is rejected like a zero-area one. -/
theorem pick_negative_dim_rejected_witness :
    ((BBox.mk 100 100 (-3) 40).normalized.w = 0 ∨ (BBox.mk 100 100 (-3) 40).normalized.h = 0) ∧
    pick_point_in_bbox ⟨100, 100, -3, 40⟩ "left-middle" 2 ⟨0, 0⟩ =
      .error (.emptyBBox ⟨100, 100, -3, 40⟩) :=
  pick_negative_dim_rejected ⟨100, 100, -3, 40⟩ (by decide) "left-middle" 2 ⟨0, 0⟩

lemma pick_random_ok (bbox : BBox) (margin : Int) (rng : RNG)
    (hne : bbox.is_empty = false) :
    ∃ p, pick_point_in_bbox bbox "random" margin rng = .ok p := by
  have hemp : bbox.normalized.is_empty = false := by
    rw [BBox.is_empty_normalized]; exact hne
  have hrule : normalizeRule "random" = "random" := by decide
  simp only [pick_point_in_bbox, hemp, Bool.false_eq_true, if_false, hrule]
  rw [if_pos (Or.inl trivial)]
  exact ⟨_, rfl⟩

/-- C8: point selection with rule `random` and a fixed seed is deterministic:
for every non-empty rectangle, margin and seed, two `click_bbox` point
selections with identical inputs return the identical point, whatever the
ambient fresh-generator state would have been. -/
theorem random_rule_seeded_deterministic (bbox : BBox) (margin : Int) (s : Int)
    (f1 f2 : RNG) (hne : bbox.is_empty = false) :
    ∃ p, click_bbox_point bbox "random" margin (some s) f1 = .ok p ∧
         click_bbox_point bbox "random" margin (some s) f2 = .ok p := by
  obtain ⟨p, hp⟩ := pick_random_ok bbox margin ⟨s, 0⟩ hne
  exact ⟨p, hp, hp⟩

/-- C8 witness: two seeded calls with different fresh-generator states agree. -/
theorem random_rule_seeded_deterministic_witness :
    click_bbox_point ⟨100, 100, 50, 40⟩ "random" 2 (some 5) ⟨1, 2⟩ =
    click_bbox_point ⟨100, 100, 50, 40⟩ "random" 2 (some 5) ⟨9, 9⟩ := by
  obtain ⟨p, h1, h2⟩ :=
    random_rule_seeded_deterministic ⟨100, 100, 50, 40⟩ 2 5 ⟨1, 2⟩ ⟨9, 9⟩ (by decide)
  rw [h1, h2]

/-- C9 counterexample: the rule string `"rand"` is neither `"random"` nor
`"left-middle"`, yet `pick_point_in_bbox` does not raise a configuration
error on it (the source accepts the aliases `rand`, `leftmid`, `left-mid`,
`left-middle-side` and normalizes case/underscores/whitespace first). -/
theorem rule_error_counterexample :
    (("rand" : String) ≠ "random" ∧ ("rand" : String) ≠ "left-middle") ∧
    pick_point_in_bbox ⟨100, 100, 50, 40⟩ "rand" 2 ⟨0, 0⟩ = .ok (119, 102) := by
  exact ⟨⟨by decide, by decide⟩, by decide⟩

/-- C9 (amended): on a non-empty rectangle, `pick_point_in_bbox` raises a
configuration error exactly when the normalized rule string (stripped,
lower-cased, underscores replaced by hyphens) is outside the accepted set
`random, rand, left-middle, leftmid, left-mid, left-middle-side`. -/
theorem pick_rule_error_iff (bbox : BBox) (rule : String) (margin : Int) (rng : RNG)
    (hne : bbox.is_empty = false) :
    (∃ e, pick_point_in_bbox bbox rule margin rng = .error e) ↔
      normalizeRule rule ∉
        (["random", "rand", "left-middle", "leftmid", "left-mid",
          "left-middle-side"] : List String) := by
  have hemp : bbox.normalized.is_empty = false := by
    rw [BBox.is_empty_normalized]; exact hne
  simp only [pick_point_in_bbox, hemp, Bool.false_eq_true, if_false]
  by_cases h1 : normalizeRule rule = "random" ∨ normalizeRule rule = "rand"
  · rw [if_pos h1]
    simp only [List.mem_cons]
    constructor
    · rintro ⟨e, he⟩; exact absurd he (by simp)
    · intro hmem; exact absurd (by tauto) hmem
  · rw [if_neg h1]
    by_cases h2 : normalizeRule rule = "left-middle" ∨ normalizeRule rule = "leftmid" ∨
        normalizeRule rule = "left-mid" ∨ normalizeRule rule = "left-middle-side"
    · rw [if_pos h2]
      simp only [List.mem_cons]
      constructor
      · rintro ⟨e, he⟩; exact absurd he (by simp)
      · intro hmem; exact absurd (by tauto) hmem
    · rw [if_neg h2]
      simp only [List.mem_cons, List.not_mem_nil, or_false]
      push_neg at h1 h2 ⊢
      exact ⟨fun _ => ⟨h1.1, h1.2, h2.1, h2.2.1, h2.2.2⟩, fun _ => ⟨_, rfl⟩⟩

/-- C9 witness: the amended characterization applied to the rejected rule
string `"weird"`. -/
theorem pick_rule_error_iff_witness :
    normalizeRule "weird" ∉
      (["random", "rand", "left-middle", "leftmid", "left-mid",
        "left-middle-side"] : List String) :=
  (pick_rule_error_iff ⟨100, 100, 50, 40⟩ "weird" 2 ⟨0, 0⟩ (by decide)).mp
    ⟨.unknownRule (normalizeRule "weird"), by decide⟩

/-! ## Helper lemmas: movement controller -/

lemma pyRound_intCast (n : Int) : pyRound (n : ℚ) = n := by
  unfold pyRound
  rw [Int.floor_intCast]
  norm_num

lemma ease_one : ease 1 = 1 := by norm_num [ease]

lemma stepTarget_final (s t : Int) (steps : ℕ) (h : 1 ≤ steps) :
    stepTarget s t steps steps = t := by
  unfold stepTarget
  have h0 : ((steps : ℚ)) ≠ 0 := Nat.cast_ne_zero.mpr (by omega)
  rw [div_self h0, ease_one]
  have harg : (s : ℚ) + ((t : ℚ) - s) * 1 = (t : ℚ) := by ring
  rw [harg, pyRound_intCast]

lemma clampCap_abs (d : Int) : |clampCap d| ≤ 400 := by
  refine abs_le.mpr ⟨?_, ?_⟩ <;> simp only [clampCap] <;> omega

/-- C5: for every move with `steps ≥ 1` and every ground-truth read oracle,
the delta emitted at step `i` equals the eased absolute step target
(`start + (target - start) * ease(i/steps)`, rounded per axis) minus the
freshly read actual position (read `i`, not the previously commanded
position), with each axis clamped to magnitude at most 400; and at
`i = steps` the step target equals the final target exactly. -/
theorem move_controller_steps (reads : ℕ → Int × Int) (x y : Int) (steps : ℕ)
    (hsteps : 1 ≤ steps) :
    (∀ i, 1 ≤ i → i ≤ steps →
      (moveDeltas reads x y steps)[i - 1]? =
        some (clampCap (stepTarget (reads 0).1 x steps i - (reads i).1),
              clampCap (stepTarget (reads 0).2 y steps i - (reads i).2))) ∧
    (∀ d ∈ moveDeltas reads x y steps, |d.1| ≤ 400 ∧ |d.2| ≤ 400) ∧
    stepTarget (reads 0).1 x steps steps = x ∧
    stepTarget (reads 0).2 y steps steps = y := by
  have hmax : max steps 1 = steps := by omega
  refine ⟨?_, ?_, stepTarget_final _ _ _ hsteps, stepTarget_final _ _ _ hsteps⟩
  · intro i h1 h2
    simp only [moveDeltas, hmax]
    rw [List.getElem?_map, List.getElem?_range (by omega : i - 1 < steps)]
    simp only [Option.map_some']
    rw [Nat.sub_add_cancel h1]
  · intro d hd
    simp only [moveDeltas, hmax, List.mem_map] at hd
    obtain ⟨k, _, rfl⟩ := hd
    exact ⟨clampCap_abs _, clampCap_abs _⟩

/-- C5 witness: the theorem applied at a concrete oracle, target and step
count (step 2 of 3). -/
theorem move_controller_steps_witness :
    (moveDeltas (fun k => ((k : Int), (2 * k : Int))) 50 60 3)[1]? =
      some (clampCap (stepTarget 0 50 3 2 - 2), clampCap (stepTarget 0 60 3 2 - 4)) :=
  (move_controller_steps (fun k => ((k : Int), (2 * k : Int))) 50 60 3 (by decide)).1
    2 (by decide) (by decide)

/-! ## Clustering: BFS characterization and partition -/

/-- Running the BFS with fuel at least the loop measure adds a duplicate-free
batch of fresh (not yet used) in-range box indices to both the used set and
the chunk member list. -/
lemma bfsFuel_spec (bs : List WordBox) (xt yt : ℚ) :
    ∀ (fuel : ℕ) (queue : List ℕ) (used : Finset ℕ) (cur : List ℕ),
      bfsMeasure bs queue used ≤ fuel →
      ∃ l : List ℕ,
        bfsFuel bs xt yt fuel queue used cur = (used ∪ l.toFinset, cur ++ l) ∧
        l.Nodup ∧ ∀ j ∈ l, j < bs.length ∧ j ∉ used := by
  intro fuel
  induction fuel with
  | zero =>
      intro queue used cur hm
      cases queue with
      | nil => exact ⟨[], by simp [bfsFuel], List.nodup_nil, by simp⟩
      | cons q rest =>
          exact absurd hm (by simp [bfsMeasure])
  | succ fuel ih =>
      intro queue used cur hm
      cases queue with
      | nil => exact ⟨[], by simp [bfsFuel], List.nodup_nil, by simp⟩
      | cons q rest =>
          have hm' : bfsMeasure bs (rest ++ closeNew bs xt yt used q)
              (used ∪ (closeNew bs xt yt used q).toFinset) ≤ fuel := by
            have := bfsMeasure_step bs xt yt used q rest
            omega
          obtain ⟨l', heq, hnd, hmem⟩ :=
            ih (rest ++ closeNew bs xt yt used q)
              (used ∪ (closeNew bs xt yt used q).toFinset)
              (cur ++ closeNew bs xt yt used q) hm'
          refine ⟨closeNew bs xt yt used q ++ l', ?_, ?_, ?_⟩
          · show bfsFuel bs xt yt (fuel + 1) (q :: rest) used cur = _
            rw [bfsFuel, heq]
            rw [List.toFinset_append, List.append_assoc, Finset.union_assoc]
          · refine (closeNew_nodup bs xt yt used q).append hnd ?_
            intro a ha hal'
            have := (hmem a hal').2
            simp only [Finset.mem_union, List.mem_toFinset, not_or] at this
            exact this.2 ha
          · intro j hj
            rcases List.mem_append.mp hj with hj | hj
            · have := mem_closeNew.mp hj
              exact ⟨this.1, this.2.1⟩
            · have := hmem j hj
              simp only [Finset.mem_union, List.mem_toFinset, not_or] at this
              exact ⟨this.1, this.2.1⟩

/-- `bfs` characterized: the specialization of `bfsFuel_spec` to the exact
budget used by `bfs`. -/
lemma bfs_spec (bs : List WordBox) (xt yt : ℚ) (queue : List ℕ) (used : Finset ℕ)
    (cur : List ℕ) :
    ∃ l : List ℕ,
      bfs bs xt yt queue used cur = (used ∪ l.toFinset, cur ++ l) ∧
      l.Nodup ∧ ∀ j ∈ l, j < bs.length ∧ j ∉ used :=
  bfsFuel_spec bs xt yt _ queue used cur le_rfl

/-- The outer merge loop: its chunks' member lists concatenate to a
duplicate-free list of in-range indices avoiding the incoming used set, and
every in-range index the loop still has to visit ends up used-or-chunked. -/
lemma mergeLoop_spec (bs : List WordBox) (xt yt : ℚ) :
    ∀ (rest : List ℕ) (used : Finset ℕ), (∀ i ∈ rest, i < bs.length) →
      (mergeLoop bs xt yt rest used).flatten.Nodup ∧
      (∀ j ∈ (mergeLoop bs xt yt rest used).flatten, j < bs.length ∧ j ∉ used) ∧
      (∀ i ∈ rest, i ∈ used ∨ i ∈ (mergeLoop bs xt yt rest used).flatten) := by
  intro rest
  induction rest with
  | nil => intro used _; simp [mergeLoop]
  | cons i rest ih =>
      intro used hrange
      by_cases hi : i ∈ used
      · have hrest : ∀ a ∈ rest, a < bs.length := fun a ha => hrange a (by simp [ha])
        obtain ⟨h1, h2, h3⟩ := ih used hrest
        rw [mergeLoop, if_pos hi]
        refine ⟨h1, h2, ?_⟩
        intro a ha
        rcases List.mem_cons.mp ha with rfl | ha
        · exact Or.inl hi
        · exact h3 a ha
      · obtain ⟨l, heq, hnd, hmem⟩ := bfs_spec bs xt yt [i] (insert i used) [i]
        have hrest : ∀ a ∈ rest, a < bs.length := fun a ha => hrange a (by simp [ha])
        obtain ⟨h1, h2, h3⟩ := ih (insert i used ∪ l.toFinset) hrest
        rw [mergeLoop, if_neg hi]
        simp only [heq]
        have hcons : (i :: l).Nodup := by
          refine List.nodup_cons.mpr ⟨?_, hnd⟩
          intro hil
          have := (hmem i hil).2
          simp at this
        have hdisj : ∀ a ∈ i :: l, a ∉ (mergeLoop bs xt yt rest (insert i used ∪ l.toFinset)).flatten := by
          intro a ha hfl
          have h2a := (h2 a hfl).2
          simp only [Finset.mem_union, Finset.mem_insert, List.mem_toFinset, not_or] at h2a
          rcases List.mem_cons.mp ha with rfl | ha
          · exact h2a.1.1 rfl
          · exact h2a.2 ha
        refine ⟨?_, ?_, ?_⟩
        · simp only [List.flatten_cons]
          exact hcons.append h1 hdisj
        · intro j hj
          simp only [List.flatten_cons] at hj
          rcases List.mem_append.mp hj with hj | hj
          · rcases List.mem_cons.mp hj with rfl | hj
            · exact ⟨hrange j (by simp), hi⟩
            · have := hmem j hj
              refine ⟨this.1, ?_⟩
              intro hju
              exact this.2 (Finset.mem_insert_of_mem hju)
          · have := h2 j hj
            refine ⟨this.1, ?_⟩
            intro hju
            apply this.2
            simp [hju]
        · intro a ha
          simp only [List.flatten_cons]
          rcases List.mem_cons.mp ha with rfl | ha
          · right; exact List.mem_append.mpr (Or.inl (by simp))
          · rcases h3 a ha with hu | hfl
            · simp only [Finset.mem_union, Finset.mem_insert, List.mem_toFinset] at hu
              rcases hu with (rfl | hu) | hu
              · right; exact List.mem_append.mpr (Or.inl (by simp))
              · exact Or.inl hu
              · right; exact List.mem_append.mpr (Or.inl (by simp [hu]))
            · right; exact List.mem_append.mpr (Or.inr hfl)

lemma chunkOf_members (bs : List WordBox) (ms : List ℕ) :
    (chunkOf bs ms).members = ms := by
  cases ms <;> rfl

lemma groupLoop_map_fst (gyt : ℚ) :
    ∀ (l : List Chunk) (gid : ℕ) (ly : Option Int),
      (groupLoop gyt l gid ly).map Prod.fst = l := by
  intro l
  induction l with
  | nil => intro gid ly; simp [groupLoop]
  | cons c rest ih => intro gid ly; simp [groupLoop, ih]

instance : IsTotal Chunk chunkLE := ⟨fun a b => le_total (chunkY a) (chunkY b)⟩

instance : IsTrans Chunk chunkLE := ⟨fun _ _ _ hab hbc => le_trans hab hbc⟩

/-- The exact group-id step relation along the output of the grouping walk:
each chunk's id is the previous id, incremented by exactly 1 when the gap of
top edges exceeds the group threshold. -/
lemma groupLoop_chain_rel (gyt : ℚ) :
    ∀ (l : List Chunk) (gid : ℕ) (ly : Option Int),
      List.Chain'
        (fun p q : Chunk × ℕ =>
          q.2 = if ((chunkY q.1 - chunkY p.1 : Int) : ℚ) > gyt then p.2 + 1 else p.2)
        (groupLoop gyt l gid ly) := by
  intro l
  induction l with
  | nil => intro gid ly; simp [groupLoop]
  | cons c rest ih =>
      intro gid ly
      simp only [groupLoop, List.chain'_cons']
      refine ⟨?_, ih _ _⟩
      intro b hb
      cases rest with
      | nil => simp [groupLoop] at hb
      | cons c2 rest2 =>
          simp only [groupLoop, List.head?_cons, Option.mem_def, Option.some.injEq] at hb
          subst hb
          by_cases hgap : ((chunkY c2 - chunkY c : Int) : ℚ) > gyt <;> simp [hgap]

/-- C2: the clustering output is sorted by bounding-box top edge ascending,
group ids are non-decreasing along that order, the first chunk gets group id
2 (pre-increment from the initial value 1), and the id increments by exactly
1 precisely when the current chunk's top edge minus the previous one's
exceeds `group_y_thresh`. -/
theorem cluster_sorted_and_grouped (bs : List WordBox) (xt yt gyt : ℚ)
    (hne : ocrChunkMode bs xt yt gyt ≠ []) :
    List.Chain' (fun p q : Chunk × ℕ => chunkY p.1 ≤ chunkY q.1)
      (ocrChunkMode bs xt yt gyt) ∧
    List.Chain' (fun p q : Chunk × ℕ => p.2 ≤ q.2) (ocrChunkMode bs xt yt gyt) ∧
    (ocrChunkMode bs xt yt gyt).head?.map Prod.snd = some 2 ∧
    List.Chain'
      (fun p q : Chunk × ℕ =>
        q.2 = if ((chunkY q.1 - chunkY p.1 : Int) : ℚ) > gyt then p.2 + 1 else p.2)
      (ocrChunkMode bs xt yt gyt) := by
  set results := (mergeLoop bs xt yt (List.range bs.length) ∅).map (chunkOf bs) with hres
  have hout : ocrChunkMode bs xt yt gyt
      = groupLoop gyt (List.insertionSort chunkLE results) 1 none := rfl
  have hrel := groupLoop_chain_rel gyt (List.insertionSort chunkLE results) 1 none
  refine ⟨?_, ?_, ?_, ?_⟩
  · have hs : List.Sorted chunkLE (List.insertionSort chunkLE results) :=
      List.sorted_insertionSort chunkLE results
    have hchain : List.Chain' chunkLE (List.insertionSort chunkLE results) := hs.chain'
    rw [hout]
    rw [← groupLoop_map_fst gyt (List.insertionSort chunkLE results) 1 none] at hchain
    rw [List.chain'_map] at hchain
    exact hchain
  · rw [hout]
    exact hrel.imp (fun p q h => by rw [h]; split <;> omega)
  · rw [hout] at hne ⊢
    cases hsort : List.insertionSort chunkLE results with
    | nil => rw [hsort] at hne; simp [groupLoop] at hne
    | cons c rest => simp [groupLoop]
  · rw [hout]; exact hrel

lemma map_members_chunkOf (bs : List WordBox) :
    ∀ l : List (List ℕ), (l.map (chunkOf bs)).map (fun c => c.members) = l := by
  intro l
  induction l with
  | nil => rfl
  | cons a t ih => simp [chunkOf_members, ih]

/-- C1: for every non-empty list of word boxes (text non-empty after
trimming), chunk-mode clustering assigns every input word box to exactly one
output chunk — the concatenation of all chunks' member indices is a
permutation of the input index range (no box in two chunks, no box left
out). -/
theorem cluster_partitions_boxes (bs : List WordBox) (xt yt gyt : ℚ)
    (hne : bs ≠ []) (htrim : ∀ b ∈ bs, pyStrip b.text.data ≠ []) :
    ((ocrChunkMode bs xt yt gyt).map (fun p => p.1.members)).flatten.Perm
      (List.range bs.length) := by
  obtain ⟨hnd, hmem, hcover⟩ := mergeLoop_spec bs xt yt (List.range bs.length) ∅
    (fun i hi => List.mem_range.mp hi)
  set cs := mergeLoop bs xt yt (List.range bs.length) ∅ with hcs
  have hmap : (ocrChunkMode bs xt yt gyt).map (fun p => p.1.members)
      = (List.insertionSort chunkLE (cs.map (chunkOf bs))).map (fun c => c.members) := by
    have h1 : (ocrChunkMode bs xt yt gyt).map Prod.fst
        = List.insertionSort chunkLE (cs.map (chunkOf bs)) :=
      groupLoop_map_fst gyt _ 1 none
    calc (ocrChunkMode bs xt yt gyt).map (fun p => p.1.members)
        = ((ocrChunkMode bs xt yt gyt).map Prod.fst).map (fun c => c.members) := by
          rw [List.map_map]; rfl
      _ = _ := by rw [h1]
  rw [hmap]
  have hp2 : ((List.insertionSort chunkLE (cs.map (chunkOf bs))).map
        (fun c => c.members)).Perm ((cs.map (chunkOf bs)).map (fun c => c.members)) :=
    (List.perm_insertionSort chunkLE _).map _
  rw [map_members_chunkOf bs cs] at hp2
  have hsub1 : cs.flatten ⊆ List.range bs.length := fun j hj =>
    List.mem_range.mpr (hmem j hj).1
  have hsub2 : List.range bs.length ⊆ cs.flatten := by
    intro i hi
    rcases hcover i hi with h | h
    · simp at h
    · exact h
  have hperm2 : cs.flatten.Perm (List.range bs.length) :=
    (hnd.subperm hsub1).antisymm ((List.nodup_range _).subperm hsub2)
  exact (hp2.flatten).trans hperm2

/-- C1 witness: the two-word scenario of the spec, boxes partitioned into
chunk member lists. -/
theorem cluster_partitions_boxes_witness :
    (([⟨"Paris", 10, 10, 30, 10⟩, ⟨"France", 45, 10, 35, 10⟩] : List WordBox) ≠ []) ∧
    ((ocrChunkMode [⟨"Paris", 10, 10, 30, 10⟩, ⟨"France", 45, 10, 35, 10⟩] 20 4 35).map
        (fun p => p.1.members)).flatten.Perm
      (List.range ([⟨"Paris", 10, 10, 30, 10⟩,
        ⟨"France", 45, 10, 35, 10⟩] : List WordBox).length) :=
  ⟨by decide,
   cluster_partitions_boxes [⟨"Paris", 10, 10, 30, 10⟩, ⟨"France", 45, 10, 35, 10⟩]
     20 4 35 (by decide) (by decide)⟩

/-- C2 witness: two vertically separated chunks; the first chunk of the
sorted output carries group id 2. -/
theorem cluster_sorted_and_grouped_witness :
    (ocrChunkMode [⟨"a", 0, 0, 5, 5⟩, ⟨"b", 0, 100, 5, 5⟩] 2 2 35 ≠ []) ∧
    ((ocrChunkMode [⟨"a", 0, 0, 5, 5⟩, ⟨"b", 0, 100, 5, 5⟩] 2 2 35).head?.map
        Prod.snd = some 2) :=
  ⟨by decide,
   (cluster_sorted_and_grouped [⟨"a", 0, 0, 5, 5⟩, ⟨"b", 0, 100, 5, 5⟩] 2 2 35
     (by decide)).2.2.1⟩

/-! ## Clustering: closeness characterization and chunk closure -/

/-- The separating horizontal gap as worded in the spec: the positive
distance between one box's far edge and the other's near edge on the x axis,
or 0 if the boxes overlap on that axis.  Written from the spec's wording, to
be compared with the source's `box_distance`. -/
def sepGapX (b1 b2 : WordBox) : Int :=
  if b1.x + b1.w < b2.x then b2.x - (b1.x + b1.w)
  else if b2.x + b2.w < b1.x then b1.x - (b2.x + b2.w)
  else 0

/-- The separating vertical gap as worded in the spec (see `sepGapX`). -/
def sepGapY (b1 b2 : WordBox) : Int :=
  if b1.y + b1.h < b2.y then b2.y - (b1.y + b1.h)
  else if b2.y + b2.h < b1.y then b1.y - (b2.y + b2.h)
  else 0

lemma box_distance_eq_sepGap (b1 b2 : WordBox)
    (hw1 : 0 ≤ b1.w) (hh1 : 0 ≤ b1.h) (hw2 : 0 ≤ b2.w) (hh2 : 0 ≤ b2.h) :
    box_distance b1 b2 = (sepGapX b1 b2, sepGapY b1 b2) := by
  simp only [box_distance, sepGapX, sepGapY, Prod.mk.injEq, max_def]
  constructor <;> (split_ifs <;> omega)

lemma box_distance_comm (b1 b2 : WordBox) :
    box_distance b1 b2 = box_distance b2 b1 := by
  simp only [box_distance, Prod.mk.injEq]
  exact ⟨max_left_comm _ _ _, max_left_comm _ _ _⟩

lemma is_close_comm (xt yt : ℚ) (b1 b2 : WordBox) :
    is_close xt yt b1 b2 = is_close xt yt b2 b1 := by
  rw [is_close, is_close, box_distance_comm]

/-- When the BFS loop terminates, no box left unused is close to any chunk
member: every member was popped from the queue at some iteration, at which
point every still-unused close box got merged. -/
lemma bfsFuel_closed (bs : List WordBox) (xt yt : ℚ) :
    ∀ (fuel : ℕ) (queue : List ℕ) (used : Finset ℕ) (cur : List ℕ),
      bfsMeasure bs queue used ≤ fuel →
      queue.Nodup →
      (∀ m ∈ queue, m ∈ cur) →
      (∀ m ∈ cur, m ∈ used) →
      (∀ m ∈ cur, m ∈ queue ∨ ∀ j, j < bs.length → j ∉ used →
          is_close xt yt (bs.getD m dfltBox) (bs.getD j dfltBox) = false) →
      ∀ m ∈ (bfsFuel bs xt yt fuel queue used cur).2,
        ∀ j, j < bs.length → j ∉ (bfsFuel bs xt yt fuel queue used cur).1 →
          is_close xt yt (bs.getD m dfltBox) (bs.getD j dfltBox) = false := by
  intro fuel
  induction fuel with
  | zero =>
      intro queue used cur hm hqn hqc hcu hinv m hmc j hj hju
      cases queue with
      | nil =>
          rcases hinv m hmc with hmq | hproc
          · exact absurd hmq (List.not_mem_nil m)
          · exact hproc j hj hju
      | cons q rest => exact absurd hm (by simp [bfsMeasure])
  | succ fuel ih =>
      intro queue used cur hm hqn hqc hcu hinv m hmc j hj hju
      cases queue with
      | nil =>
          rcases hinv m hmc with hmq | hproc
          · exact absurd hmq (List.not_mem_nil m)
          · exact hproc j hj hju
      | cons q rest =>
          have hm' : bfsMeasure bs (rest ++ closeNew bs xt yt used q)
              (used ∪ (closeNew bs xt yt used q).toFinset) ≤ fuel := by
            have := bfsMeasure_step bs xt yt used q rest
            omega
          refine ih (rest ++ closeNew bs xt yt used q)
            (used ∪ (closeNew bs xt yt used q).toFinset)
            (cur ++ closeNew bs xt yt used q) hm' ?_ ?_ ?_ ?_ m hmc j hj hju
          · refine (hqn.of_cons).append (closeNew_nodup bs xt yt used q) ?_
            intro a ha hanew
            have hau : a ∈ used := hcu a (hqc a (List.mem_cons_of_mem q ha))
            exact (mem_closeNew.mp hanew).2.1 hau
          · intro m' hm'
            rcases List.mem_append.mp hm' with h | h
            · exact List.mem_append.mpr (Or.inl (hqc m' (List.mem_cons_of_mem q h)))
            · exact List.mem_append.mpr (Or.inr h)
          · intro m' hm'
            rcases List.mem_append.mp hm' with h | h
            · exact Finset.mem_union_left _ (hcu m' h)
            · exact Finset.mem_union_right _ (List.mem_toFinset.mpr h)
          · intro m' hm'
            rcases List.mem_append.mp hm' with h | h
            · rcases hinv m' h with hq | hproc
              · rcases List.mem_cons.mp hq with rfl | hq
                · right
                  intro j' hj' hju'
                  simp only [Finset.mem_union, List.mem_toFinset, not_or] at hju'
                  by_contra hcl
                  rw [Bool.not_eq_false] at hcl
                  exact hju'.2 (mem_closeNew.mpr ⟨hj', hju'.1, hcl⟩)
                · exact Or.inl (List.mem_append.mpr (Or.inl hq))
              · right
                intro j' hj' hju'
                simp only [Finset.mem_union, not_or] at hju'
                exact hproc j' hj' hju'.1
            · exact Or.inl (List.mem_append.mpr (Or.inr h))

/-- Specialization of `bfsFuel_closed` to the seeded call made by the outer
merge loop. -/
lemma bfs_closed (bs : List WordBox) (xt yt : ℚ) (i : ℕ) (used : Finset ℕ) :
    ∀ m ∈ (bfs bs xt yt [i] (insert i used) [i]).2,
      ∀ j, j < bs.length → j ∉ (bfs bs xt yt [i] (insert i used) [i]).1 →
        is_close xt yt (bs.getD m dfltBox) (bs.getD j dfltBox) = false := by
  refine bfsFuel_closed bs xt yt _ [i] (insert i used) [i] le_rfl
    (List.nodup_singleton i) (fun m hm => hm) ?_ ?_
  · intro m hm
    rcases List.mem_singleton.mp hm with rfl
    exact Finset.mem_insert_self m used
  · intro m hm
    exact Or.inl hm

/-- Two directly close boxes always land in the same chunk of the merge
loop: a later chunk cannot contain a box close to an earlier chunk's member,
because the earlier BFS would have absorbed it while it was unused. -/
lemma mergeLoop_close (bs : List WordBox) (xt yt : ℚ) :
    ∀ (rest : List ℕ) (used : Finset ℕ), (∀ i ∈ rest, i < bs.length) →
      ∀ a b : ℕ, a < bs.length → b < bs.length →
        is_close xt yt (bs.getD a dfltBox) (bs.getD b dfltBox) = true →
        a ∈ (mergeLoop bs xt yt rest used).flatten →
        b ∈ (mergeLoop bs xt yt rest used).flatten →
        ∃ c ∈ mergeLoop bs xt yt rest used, a ∈ c ∧ b ∈ c := by
  intro rest
  induction rest with
  | nil =>
      intro used _ a b _ _ _ ha _
      simp [mergeLoop] at ha
  | cons i rest ih =>
      intro used hrange a b hab hbb hclose ha hb
      have hrest : ∀ x ∈ rest, x < bs.length := fun x hx => hrange x (by simp [hx])
      by_cases hi : i ∈ used
      · rw [mergeLoop, if_pos hi] at ha hb ⊢
        exact ih used hrest a b hab hbb hclose ha hb
      · obtain ⟨l, heq, hnd, hmem⟩ := bfs_spec bs xt yt [i] (insert i used) [i]
        have hclosed := bfs_closed bs xt yt i used
        rw [heq] at hclosed
        rw [mergeLoop, if_neg hi] at ha hb ⊢
        simp only [heq, List.flatten_cons, List.singleton_append] at ha hb ⊢
        obtain ⟨h1, h2, h3⟩ :=
          mergeLoop_spec bs xt yt rest (insert i used ∪ l.toFinset) hrest
        rcases List.mem_append.mp ha with ha' | ha' <;>
          rcases List.mem_append.mp hb with hb' | hb'
        · exact ⟨i :: l, List.mem_cons_self _ _, ha', hb'⟩
        · have hbu := (h2 b hb').2
          have hcontra := hclosed a ha' b hbb hbu
          rw [hclose] at hcontra
          exact absurd hcontra (by simp)
        · have hau := (h2 a ha').2
          have hcontra := hclosed b hb' a hab hau
          rw [is_close_comm] at hcontra
          rw [hclose] at hcontra
          exact absurd hcontra (by simp)
        · obtain ⟨c, hc, hac, hbc⟩ :=
            ih (insert i used ∪ l.toFinset) hrest a b hab hbb hclose ha' hb'
          exact ⟨c, List.mem_cons_of_mem _ hc, hac, hbc⟩

/-- C3 counterexample to the claim as stated: two touching boxes
(`x_gap = 0`, `y_gap = 0`) do NOT end up in the same chunk when the
thresholds are negative (here `x_thresh = y_thresh = -1`), because the
closeness test `0 ≤ x_thresh` fails; so "for all threshold values" is false
on the code. -/
theorem close_merge_counterexample :
    box_distance ⟨"a", 0, 0, 10, 10⟩ ⟨"b", 10, 0, 10, 10⟩ = (0, 0) ∧
    (ocrChunkMode [⟨"a", 0, 0, 10, 10⟩, ⟨"b", 10, 0, 10, 10⟩] (-1) (-1) 35).map
        (fun p => p.1.members) = [[0], [1]] ∧
    ¬ ∃ p ∈ ocrChunkMode [⟨"a", 0, 0, 10, 10⟩, ⟨"b", 10, 0, 10, 10⟩] (-1) (-1) 35,
        0 ∈ p.1.members ∧ 1 ∈ p.1.members := by
  exact ⟨by decide, by decide, by decide⟩

/-- C3 (amended): two word boxes are directly merge-eligible exactly when
`x_gap ≤ x_thresh` and `y_gap ≤ y_thresh`, where each gap (for boxes with
non-negative dimensions) is the positive separating distance along that axis
and 0 when the boxes overlap on it; and for every pair of touching boxes
(`x_gap = 0` and `y_gap = 0`) and all NON-NEGATIVE threshold values, the two
boxes end up in the same output chunk. -/
theorem close_merge_characterization :
    (∀ (xt yt : ℚ) (b1 b2 : WordBox),
        0 ≤ b1.w → 0 ≤ b1.h → 0 ≤ b2.w → 0 ≤ b2.h →
        (is_close xt yt b1 b2 = true ↔
          ((sepGapX b1 b2 : ℚ) ≤ xt ∧ (sepGapY b1 b2 : ℚ) ≤ yt))) ∧
    (∀ (bs : List WordBox) (xt yt gyt : ℚ), 0 ≤ xt → 0 ≤ yt →
      ∀ a b : ℕ, a < bs.length → b < bs.length →
        box_distance (bs.getD a dfltBox) (bs.getD b dfltBox) = (0, 0) →
        ∃ p ∈ ocrChunkMode bs xt yt gyt, a ∈ p.1.members ∧ b ∈ p.1.members) := by
  constructor
  · intro xt yt b1 b2 hw1 hh1 hw2 hh2
    rw [is_close, box_distance_eq_sepGap b1 b2 hw1 hh1 hw2 hh2]
    simp [Bool.and_eq_true, decide_eq_true_eq]
  · intro bs xt yt gyt hxt hyt a b hab hbb htouch
    have hclose : is_close xt yt (bs.getD a dfltBox) (bs.getD b dfltBox) = true := by
      rw [is_close, htouch]
      simp only [Bool.and_eq_true, decide_eq_true_eq]
      constructor <;> simpa using by assumption
    obtain ⟨hnd, hmem, hcover⟩ := mergeLoop_spec bs xt yt (List.range bs.length) ∅
      (fun i hi => List.mem_range.mp hi)
    set cs := mergeLoop bs xt yt (List.range bs.length) ∅ with hcs
    have haJ : a ∈ cs.flatten := by
      rcases hcover a (List.mem_range.mpr hab) with h | h
      · simp at h
      · exact h
    have hbJ : b ∈ cs.flatten := by
      rcases hcover b (List.mem_range.mpr hbb) with h | h
      · simp at h
      · exact h
    obtain ⟨c, hc, hac, hbc⟩ := mergeLoop_close bs xt yt (List.range bs.length) ∅
      (fun i hi => List.mem_range.mp hi) a b hab hbb hclose haJ hbJ
    have hcs' : chunkOf bs c ∈ List.insertionSort chunkLE (cs.map (chunkOf bs)) := by
      rw [(List.perm_insertionSort chunkLE _).mem_iff]
      exact List.mem_map_of_mem _ hc
    have hfst : (ocrChunkMode bs xt yt gyt).map Prod.fst
        = List.insertionSort chunkLE (cs.map (chunkOf bs)) :=
      groupLoop_map_fst gyt _ 1 none
    rw [← hfst] at hcs'
    obtain ⟨p, hp, hpe⟩ := List.mem_map.mp hcs'
    refine ⟨p, hp, ?_, ?_⟩
    · rw [hpe, chunkOf_members]; exact hac
    · rw [hpe, chunkOf_members]; exact hbc

/-- C3 witness: the amended statement at two touching boxes with zero
thresholds — they land in one common chunk. -/
theorem close_merge_characterization_witness :
    ∃ p ∈ ocrChunkMode [⟨"a", 0, 0, 10, 10⟩, ⟨"b", 10, 0, 10, 10⟩] 0 0 35,
      0 ∈ p.1.members ∧ 1 ∈ p.1.members :=
  close_merge_characterization.2 [⟨"a", 0, 0, 10, 10⟩, ⟨"b", 10, 0, 10, 10⟩] 0 0 35
    (by norm_num) (by norm_num) 0 1 (by decide) (by decide) (by decide)
